import Mathlib

set_option maxHeartbeats 1000000

namespace SpecKit

/-- A file-system tree: either a file with string content, or a directory
with a list of named entries (association list, order = directory listing order). -/
inductive FsTree where
  | file (content : String)
  | dir (entries : List (String × FsTree))

/-- Entries of a directory. -/
abbrev FsEntries := List (String × FsTree)

/-- Look up the entry named `n` in a directory listing (first match wins). -/
def lookupEntry : FsEntries → String → Option FsTree
  | [], _ => none
  | (m, t) :: rest, n => if m == n then some t else lookupEntry rest n

/-- Replace the entry named `n` (first occurrence) with `t`, or append it. -/
def setEntry : FsEntries → String → FsTree → FsEntries
  | [], n, t => [(n, t)]
  | (m, u) :: rest, n, t =>
      if m == n then (n, t) :: rest else (m, u) :: setEntry rest n t

/-- Follow a non-empty path of names through nested directories. -/
def getPathE (es : FsEntries) : List String → Option FsTree
  | [] => none
  | [n] => lookupEntry es n
  | n :: p =>
      match lookupEntry es n with
      | some (FsTree.dir des) => getPathE des p
      | _ => none

/-- All files strictly below a directory listing, as
`(parent components relative to the listing, file name, content)`,
in depth-first listing order.  This is the information produced by
`item.rglob('*')` filtered with `sub_item.is_file()` in
`download_and_extract_template`. -/
def filesOfEntries : FsEntries → List (List String × String × String)
  | [] => []
  | (n, FsTree.file c) :: rest => ([], n, c) :: filesOfEntries rest
  | (n, FsTree.dir des) :: rest =>
      ((filesOfEntries des).map fun x => (n :: x.1, x.2)) ++ filesOfEntries rest

/-- Well-formedness of a directory tree: within each directory the entry
names are pairwise distinct (true of every real file system). -/
def wfEntries : FsEntries → Bool
  | [] => true
  | (n, FsTree.file _) :: rest =>
      !((rest.map Prod.fst).contains n) && wfEntries rest
  | (n, FsTree.dir des) :: rest =>
      !((rest.map Prod.fst).contains n) && wfEntries des && wfEntries rest

/-! ### The copy primitives of `download_and_extract_template`

`dest_file.parent.mkdir(parents=True, exist_ok=True)` either creates every
missing ancestor (when no existing non-directory stands in the way) or raises
before creating anything: CPython's `Path.mkdir` recurses into parent creation
only on `FileNotFoundError`, and a name conflict with an existing file is
detected on the first `os.mkdir` attempt, before any directory is made.  We
model this as a conflict check `mkdirOk` plus an effect `mkdirCreate`. -/

/-- Does `mkdir(parents=True, exist_ok=True)` succeed for this path of
directory names?  It fails exactly when some existing prefix entry is a file. -/
def mkdirOk : FsEntries → List String → Bool
  | _, [] => true
  | es, n :: p =>
      match lookupEntry es n with
      | some (FsTree.file _) => false
      | some (FsTree.dir des) => mkdirOk des p
      | none => true

/-- Effect of a successful `mkdir(parents=True, exist_ok=True)`: create every
missing directory along the path.  (On the conflict branch, which `mkdirOk`
rules out, nothing is created.) -/
def mkdirCreate : FsEntries → List String → FsEntries
  | es, [] => es
  | es, n :: p =>
      match lookupEntry es n with
      | some (FsTree.file _) => es
      | some (FsTree.dir des) => setEntry es n (FsTree.dir (mkdirCreate des p))
      | none => setEntry es n (FsTree.dir (mkdirCreate [] p))

/-- `mkdir(parents=True, exist_ok=True)` on a path of directory names:
returns the updated listing and whether the call succeeded. -/
def mkdirParents (es : FsEntries) (p : List String) : FsEntries × Bool :=
  if mkdirOk es p then (mkdirCreate es p, true) else (es, false)

/-- `shutil.copy2(src_file, dst)` where `dst` names the entry `n` of the
listing `es` and the source file's base name is also `n` (true at every call
site in the program): if `dst` is an existing directory the file is copied
into it under its base name (failing if that inner name is again a
directory); otherwise `dst` itself is created or silently overwritten. -/
def copy2 (es : FsEntries) (n : String) (c : String) : FsEntries × Bool :=
  match lookupEntry es n with
  | some (FsTree.dir des) =>
      match lookupEntry des n with
      | some (FsTree.dir _) => (es, false)
      | _ => (setEntry es n (FsTree.dir (setEntry des n (FsTree.file c))), true)
  | _ => (setEntry es n (FsTree.file c), true)

/-- Apply `copy2` at the end of a path of existing directories.  (After a
successful `mkdirParents` every component of `parent` is a directory; the
fallback branch is unreachable then.) -/
def copy2At : FsEntries → List String → String → String → FsEntries × Bool
  | es, [], n, c => copy2 es n c
  | es, d :: p, n, c =>
      match lookupEntry es d with
      | some (FsTree.dir des) =>
          let r := copy2At des p n c
          (setEntry es d (FsTree.dir r.1), r.2)
      | _ => (es, false)

/-- One iteration of the recursive merge loop body:
`dest_file.parent.mkdir(parents=True, exist_ok=True)` followed by
`shutil.copy2(sub_item, dest_file)`, for the file `fn` with content `c` at
parent path `parent` below the destination listing `es`. -/
def writeFileOp (es : FsEntries) (parent : List String) (fn : String) (c : String) :
    FsEntries × Bool :=
  let r := mkdirParents es parent
  if r.2 then copy2At r.1 parent fn c else (r.1, false)

/-- The `for sub_item in item.rglob('*'): if sub_item.is_file(): ...` merge
loop: copy each file of the incoming subtree `name` in turn, stopping at the
first failure (the raised exception aborts the whole copy phase). -/
def copyFilesLoop (dest : FsEntries) (name : String) :
    List (List String × String × String) → FsEntries × Bool
  | [] => (dest, true)
  | (p, fn, c) :: rest =>
      let r := writeFileOp dest (name :: p) fn c
      if r.2 then copyFilesLoop r.1 name rest else (r.1, false)

/-- Body of the top-level copy loop of the current-directory branch:
one incoming entry `(name, t)` is copied to the destination `dest`.
A directory whose name already exists at the destination is merged
file-by-file; a directory with a fresh name is copied whole
(`shutil.copytree`); a file is copied with `shutil.copy2`. -/
def copyItemOp (dest : FsEntries) (name : String) (t : FsTree) : FsEntries × Bool :=
  match t with
  | FsTree.dir es =>
      match lookupEntry dest name with
      | some _ => copyFilesLoop dest name (filesOfEntries es)
      | none => (setEntry dest name (FsTree.dir es), true)
  | FsTree.file c => copy2 dest name c

/-- The whole `for item in source_dir.iterdir():` loop, threading the
destination listing and stopping at the first failure. -/
def mergeLoop (dest : FsEntries) : FsEntries → FsEntries × Bool
  | [] => (dest, true)
  | (n, t) :: rest =>
      let r := copyItemOp dest n t
      if r.2 then mergeLoop r.1 rest else (r.1, false)

/-- The single-wrapping-root check shared by both destination modes:
`if len(extracted_items) == 1 and extracted_items[0].is_dir():` then read
from inside that directory, else use the extracted entries as-is. -/
def flattenSource : FsEntries → FsEntries
  | [(_, FsTree.dir es)] => es
  | items => items

/-! ### The extract phase of `download_and_extract_template`

The phase is modelled from the point where the archive has been downloaded
(the `try:` block that begins with `project_path.mkdir(parents=True)`).
`zipEntries` is the top-level content of the archive.  I/O failures of the
individual filesystem steps are injected as booleans; each `shutil.move`
is a same-filesystem rename and therefore all-or-nothing.  The tracker
bookkeeping of the function is irrelevant to the filesystem outcome and is
modelled separately. -/

/-- Injected failure points of the fresh-directory extract phase:
`zip_ref.extractall(project_path)`, the move of the nested directory to the
temp location, `project_path.rmdir()`, and the move back. -/
structure FreshFailures where
  extractFails : Bool
  move1Fails : Bool
  rmdirFails : Bool
  move2Fails : Bool

/-- No injected failure. -/
def noFreshFailure : FreshFailures := ⟨false, false, false, false⟩

/-- Outcome of the fresh-directory extract phase: whether the project
directory still exists (and with which entries), whether the
`<project>_temp` move directory was left behind, whether the downloaded
archive file still exists, and whether the phase succeeded. -/
structure FreshOutcome where
  projectExists : Bool
  project : FsEntries
  tempMoveExists : Bool
  tempMove : FsEntries
  zipExists : Bool
  ok : Bool

/-- The extract phase with `is_current_dir = False`:
`project_path.mkdir(parents=True)` creates the destination,
`zip_ref.extractall(project_path)` unpacks into it, a single top-level
directory is flattened by the move/rmdir/move dance, the `except` handler
removes `project_path` when it still exists and re-raises, and the
`finally` block always deletes the downloaded archive. -/
def runFreshExtract (zipEntries : FsEntries) (f : FreshFailures) : FreshOutcome :=
  -- project_path.mkdir(parents=True): destination now exists, empty
  if f.extractFails then
    -- except: project_path exists -> shutil.rmtree(project_path); finally: zip unlinked
    ⟨false, [], false, [], false, false⟩
  else
    match zipEntries with
    | [(_, FsTree.dir es)] =>
        -- single wrapping root: move nested dir out, drop the shell, move back
        if f.move1Fails then
          -- nothing moved; except: rmtree(project_path); finally: zip unlinked
          ⟨false, [], false, [], false, false⟩
        else if f.rmdirFails then
          -- nested dir now at temp location, project still exists (empty);
          -- except: rmtree(project_path); the temp move dir is left behind
          ⟨false, [], true, es, false, false⟩
        else if f.move2Fails then
          -- project removed by rmdir, temp still holds the content;
          -- except: project_path.exists() is false, nothing removed
          ⟨false, [], true, es, false, false⟩
        else
          ⟨true, es, false, [], false, true⟩
    | items =>
        ⟨true, items, false, [], false, true⟩

/-- Injected failure point of the current-directory extract phase:
`zip_ref.extractall(temp_path)`. Copy failures are produced by the
merge itself. -/
structure CurrentFailures where
  extractFails : Bool

/-- No injected failure. -/
def noCurrentFailure : CurrentFailures := ⟨false⟩

/-- Outcome of the current-directory extract phase: the destination
listing, whether the temporary staging directory and the downloaded
archive still exist, and whether the phase succeeded. -/
structure CurrentOutcome where
  dest : FsEntries
  stagingExists : Bool
  zipExists : Bool
  ok : Bool

/-- The extract phase with `is_current_dir = True`: the archive is unpacked
into a `tempfile.TemporaryDirectory()` staging area (removed by the context
manager on both exit paths), a single wrapping root is flattened by reading
from inside it, the top-level entries are merged into the current directory,
and the `finally` block always deletes the downloaded archive. -/
def runCurrentExtract (destInit zipEntries : FsEntries) (f : CurrentFailures) :
    CurrentOutcome :=
  if f.extractFails then
    ⟨destInit, false, false, false⟩
  else
    let r := mergeLoop destInit (flattenSource zipEntries)
    ⟨r.1, false, false, r.2⟩

/-! ### `download_template_from_github` -/

/-- A release asset as read from the GitHub release metadata. -/
structure Asset where
  name : String
  browserDownloadUrl : String
  size : Nat
deriving Repr, DecidableEq

/-- `pattern = f"spec-kit-template-{ai_assistant}"`. -/
def templatePattern (aiAssistant : String) : String :=
  "spec-kit-template-" ++ aiAssistant

/-- Is `p` a prefix of `s` (as character lists)? -/
def charPrefix : List Char → List Char → Bool
  | [], _ => true
  | _ :: _, [] => false
  | a :: p, b :: s => a == b && charPrefix p s

/-- Does `s` contain `p` as a contiguous substring?  This is Python's
`p in s` on strings. -/
def charContains (p : List Char) : List Char → Bool
  | [] => charPrefix p []
  | s@(_ :: rest) => charPrefix p s || charContains p rest

/-- Is `p` a suffix of `s` (as character lists)?  This is Python's
`s.endswith(p)`. -/
def charSuffix (p s : List Char) : Bool :=
  charPrefix p.reverse s.reverse

/-- The asset filter: `pattern in asset["name"] and asset["name"].endswith(".zip")`. -/
def assetMatches (aiAssistant : String) (a : Asset) : Bool :=
  charContains (templatePattern aiAssistant).data a.name.data
    && charSuffix ".zip".data a.name.data

/-- Outcome of `download_template_from_github`: the result (selected asset,
or the error classification raised as `typer.Exit(1)`), whether a file at
`download_dir / filename` was ever written during the call, and whether such
a file still exists when the call returns. -/
structure DownloadOutcome where
  result : Except String Asset
  fileWrittenDuring : Bool
  fileRemains : Bool

/-- `download_template_from_github` from the point where the release
metadata has been fetched: filter the assets, fail with `TemplateNotFound`
when nothing matches (before any byte is downloaded), otherwise stream the
first matching asset to disk; a transport failure mid-stream
(`httpx.RequestError`) unlinks the partially written file and raises
`DownloadError`. -/
def download_template_from_github (aiAssistant : String) (assets : List Asset)
    (streamInterrupted : Bool) : DownloadOutcome :=
  match assets.filter (assetMatches aiAssistant) with
  | [] => ⟨Except.error "TemplateNotFound", false, false⟩
  | a :: _ =>
      if streamInterrupted then ⟨Except.error "DownloadError", true, false⟩
      else ⟨Except.ok a, true, true⟩

/-! ### `StepTracker`

`self.steps` is a list of dicts `{key, label, status, detail}`.  The
rendering machinery (`title`, `render`, the refresh callback — whose
exceptions are swallowed) has no effect on the step list and is not
modelled. -/

/-- One tracked step. -/
structure Step where
  key : String
  label : String
  status : String
  detail : String
deriving Repr, DecidableEq

/-- The tracker state: the ordered list of steps. -/
structure StepTracker where
  steps : List Step
deriving Repr, DecidableEq

/-- `StepTracker.add`: append a pending step unless the key already exists. -/
def StepTracker.add (t : StepTracker) (key label : String) : StepTracker :=
  if (t.steps.map Step.key).contains key then t
  else ⟨t.steps ++ [⟨key, label, "pending", ""⟩]⟩

/-- The loop of `StepTracker._update`: update the first step with this key in
place (overwriting the detail only when the new detail is non-empty, Python
string truthiness); if no step matches, append a synthesized step with
`label = key`. -/
def updateSteps (key status detail : String) : List Step → List Step
  | [] => [⟨key, key, status, detail⟩]
  | s :: rest =>
      if s.key == key then
        { s with status := status, detail := if detail == "" then s.detail else detail } :: rest
      else s :: updateSteps key status detail rest

/-- `StepTracker._update`. -/
def StepTracker.update (t : StepTracker) (key status detail : String) : StepTracker :=
  ⟨updateSteps key status detail t.steps⟩

/-- `StepTracker.start`. -/
def StepTracker.start (t : StepTracker) (key : String) (detail : String := "") : StepTracker :=
  t.update key "running" detail

/-- `StepTracker.complete`. -/
def StepTracker.complete (t : StepTracker) (key : String) (detail : String := "") : StepTracker :=
  t.update key "done" detail

/-- `StepTracker.error`. -/
def StepTracker.error (t : StepTracker) (key : String) (detail : String := "") : StepTracker :=
  t.update key "error" detail

/-- `StepTracker.skip`. -/
def StepTracker.skip (t : StepTracker) (key : String) (detail : String := "") : StepTracker :=
  t.update key "skipped" detail

/-- One call of the public mutating interface of `StepTracker`. -/
inductive TrackerCall where
  | add (key label : String)
  | start (key detail : String)
  | complete (key detail : String)
  | error (key detail : String)
  | skip (key detail : String)

/-- The key named by a call. -/
def TrackerCall.key : TrackerCall → String
  | .add k _ => k
  | .start k _ => k
  | .complete k _ => k
  | .error k _ => k
  | .skip k _ => k

/-- Apply one call to a tracker. -/
def applyCall (t : StepTracker) : TrackerCall → StepTracker
  | .add k l => t.add k l
  | .start k d => t.start k d
  | .complete k d => t.complete k d
  | .error k d => t.error k d
  | .skip k d => t.skip k d

/-- Apply a sequence of calls in order. -/
def applyCalls (t : StepTracker) (cs : List TrackerCall) : StepTracker :=
  cs.foldl applyCall t

/-- Modelled from the spec: the order in which keys are first introduced by a
call sequence (by an `add`, or by an update naming an unknown key),
accumulated onto the keys `ks` already present. -/
def firstIntroOrder (ks : List String) : List TrackerCall → List String
  | [] => ks
  | c :: rest =>
      firstIntroOrder (if ks.contains c.key then ks else ks ++ [c.key]) rest

/-- First step with the given key, if any. -/
def findStep (t : StepTracker) (key : String) : Option Step :=
  t.steps.find? fun s => s.key == key

/-! ### The git phase of `init` -/

/-- Environment of the git phase of `init`: the `--no-git` flag, whether the
destination is already a git repository, whether the `git` tool is on the
path, and whether `init_git_repo` would succeed. -/
structure GitPhaseInput where
  noGit : Bool
  isRepo : Bool
  gitAvailable : Bool
  initSucceeds : Bool

/-- The git step of `init` (after `download_and_extract_template` returned):
a pure tracker transformation — none of its branches raises, so the run
proceeds to `tracker.complete("final", ...)` afterwards in every case. -/
def gitPhase (t : StepTracker) (inp : GitPhaseInput) : StepTracker :=
  if !inp.noGit then
    let t := t.start "git"
    if inp.isRepo then t.complete "git" "existing repo detected"
    else if inp.gitAvailable then
      if inp.initSucceeds then t.complete "git" "initialized"
      else t.error "git" "init failed"
    else t.skip "git" "git not available"
  else t.skip "git" "--no-git flag"

/-! ## Supporting lemmas -/

/-- The fresh-mode extract phase leaves the destination directory in
existence exactly when the phase succeeded. -/
theorem runFreshExtract_projectExists_eq_ok (zipEntries : FsEntries) (f : FreshFailures) :
    (runFreshExtract zipEntries f).projectExists = (runFreshExtract zipEntries f).ok := by
  unfold runFreshExtract
  split
  · rfl
  · split
    · split
      · rfl
      · split
        · rfl
        · split <;> rfl
    · rfl

/-- Updating a key that is absent from the step list appends a synthesized
step with `label = key`. -/
theorem updateSteps_not_mem (k st d : String) (l : List Step)
    (h : (l.map Step.key).contains k = false) :
    updateSteps k st d l = l ++ [⟨k, k, st, d⟩] := by
  induction l with
  | nil => rfl
  | cons s rest ih =>
      simp only [List.map_cons, List.contains_cons, Bool.or_eq_false_iff,
        beq_eq_false_iff_ne] at h
      have hne : (s.key == k) = false := beq_eq_false_iff_ne.mpr fun e => h.1 e.symm
      simp only [updateSteps, hne, Bool.false_eq_true, if_false,
        ih (by simpa [beq_eq_false_iff_ne] using h.2), List.cons_append]

/-- `updateSteps` preserves the key sequence when the key is present and
appends it otherwise. -/
theorem keys_updateSteps (k st d : String) (l : List Step) :
    (updateSteps k st d l).map Step.key
      = if (l.map Step.key).contains k then l.map Step.key
        else l.map Step.key ++ [k] := by
  induction l with
  | nil => simp [updateSteps]
  | cons s rest ih =>
      by_cases hk : (s.key == k) = true
      · have hks : (k == s.key) = true := by
          simp only [beq_iff_eq] at hk ⊢; exact hk.symm
        simp only [updateSteps, hk, if_true, List.map_cons, List.contains_cons, hks,
          Bool.true_or, if_true]
      · have hk' : (s.key == k) = false := by simpa using hk
        have hks : (k == s.key) = false := by
          simp only [beq_eq_false_iff_ne] at hk' ⊢; exact fun e => hk' e.symm
        simp only [updateSteps, hk', Bool.false_eq_true, if_false, List.map_cons,
          List.contains_cons, hks, Bool.false_or, ih]
        split <;> simp

/-- `add` either leaves the key sequence unchanged or appends the new key. -/
theorem keys_add (t : StepTracker) (k lab : String) :
    ((t.add k lab).steps.map Step.key)
      = if (t.steps.map Step.key).contains k then t.steps.map Step.key
        else t.steps.map Step.key ++ [k] := by
  unfold StepTracker.add
  split <;> simp_all

/-- Every tracker call either leaves the key sequence unchanged (key already
present) or appends the named key. -/
theorem keys_applyCall (t : StepTracker) (c : TrackerCall) :
    ((applyCall t c).steps.map Step.key)
      = if (t.steps.map Step.key).contains c.key then t.steps.map Step.key
        else t.steps.map Step.key ++ [c.key] := by
  cases c <;>
    simp [applyCall, TrackerCall.key, keys_add, StepTracker.start, StepTracker.complete,
      StepTracker.error, StepTracker.skip, StepTracker.update, keys_updateSteps]

/-- Invariant: the key sequence after a call sequence is the first-introduction
order of the calls, on top of the keys already present. -/
theorem keys_applyCalls (cs : List TrackerCall) (t : StepTracker) :
    ((applyCalls t cs).steps.map Step.key)
      = firstIntroOrder (t.steps.map Step.key) cs := by
  induction cs generalizing t with
  | nil => rfl
  | cons c rest ih =>
      show ((applyCalls (applyCall t c) rest).steps.map Step.key) = _
      rw [ih (applyCall t c), firstIntroOrder, keys_applyCall]

/-- A second `add` with the same key is a no-op. -/
theorem add_idempotent (t : StepTracker) (k lab lab' : String) :
    ((t.add k lab).add k lab').steps = (t.add k lab).steps := by
  by_cases h : ((t.steps.map Step.key).contains k) = true
  · unfold StepTracker.add
    rw [if_pos h, if_pos h]
  · have hc : (((t.steps ++ [(⟨k, lab, "pending", ""⟩ : Step)]).map Step.key).contains k)
        = true := by
      rw [List.contains_eq_any_beq]
      simp
    unfold StepTracker.add
    rw [if_neg h]
    exact if_pos hc ▸ rfl

/-- The first step carrying a key, after an update of that key with a
non-empty detail, has the requested status and detail (its label is the
pre-existing one, or the key itself for a synthesized step). -/
theorem find?_updateSteps (k st d : String) (l : List Step)
    (hd : (d == "") = false) :
    ∃ lab, (updateSteps k st d l).find? (fun s => s.key == k)
        = some ⟨k, lab, st, d⟩ := by
  induction l with
  | nil => exact ⟨k, by simp [updateSteps, List.find?]⟩
  | cons s rest ih =>
      by_cases h : (s.key == k) = true
      · have hk : s.key = k := by simpa [beq_iff_eq] using h
        refine ⟨s.label, ?_⟩
        simp [updateSteps, h, List.find?, hd, hk]
      · have h' : (s.key == k) = false := by simpa using h
        obtain ⟨lab, hl⟩ := ih
        exact ⟨lab, by simp [updateSteps, h', List.find?, hl]⟩

/-- `getPathE` on a cons-cons path steps through the first directory. -/
theorem getPathE_cons_cons (es : FsEntries) (n m : String) (p : List String) :
    getPathE es (n :: m :: p)
      = match lookupEntry es n with
        | some (FsTree.dir des) => getPathE des (m :: p)
        | _ => none := rfl

/-- A head entry with a different name does not affect `getPathE`. -/
theorem getPathE_cons_ne (n : String) (t : FsTree) (rest : FsEntries) (k : String)
    (p : List String) (h : (n == k) = false) :
    getPathE ((n, t) :: rest) (k :: p) = getPathE rest (k :: p) := by
  cases p with
  | nil => simp [getPathE, lookupEntry, h]
  | cons m p' => simp [getPathE_cons_cons, lookupEntry, h]

/-- Looking up after `setEntry`. -/
theorem lookup_setEntry (es : FsEntries) (n m : String) (t : FsTree) :
    lookupEntry (setEntry es n t) m
      = if m = n then some t else lookupEntry es m := by
  induction es with
  | nil =>
      by_cases h : m = n
      · subst h; simp [setEntry, lookupEntry]
      · have hb : (n == m) = false := beq_eq_false_iff_ne.mpr (Ne.symm h)
        simp [setEntry, lookupEntry, hb, h]
  | cons e rest ih =>
      obtain ⟨a, u⟩ := e
      by_cases ha : a = n
      · subst ha
        simp only [setEntry, beq_self_eq_true, if_true]
        by_cases hm : m = a
        · subst hm; simp [lookupEntry]
        · have hb : (a == m) = false := beq_eq_false_iff_ne.mpr (Ne.symm hm)
          simp [lookupEntry, hb, hm]
      · have ha' : (a == n) = false := beq_eq_false_iff_ne.mpr ha
        simp only [setEntry, ha', Bool.false_eq_true, if_false]
        by_cases hm : a = m
        · subst hm
          have hmn : ¬ (a = n) := ha
          simp [lookupEntry, hmn]
        · have hb : (a == m) = false := beq_eq_false_iff_ne.mpr hm
          simp [lookupEntry, hb, ih]

/-- Replacing an entry with its current value is the identity. -/
theorem setEntry_self (es : FsEntries) (n : String) (t : FsTree)
    (h : lookupEntry es n = some t) : setEntry es n t = es := by
  induction es with
  | nil => simp [lookupEntry] at h
  | cons e rest ih =>
      obtain ⟨a, u⟩ := e
      by_cases ha : a = n
      · subst ha
        simp [lookupEntry] at h
        simp [setEntry, h]
      · have ha' : (a == n) = false := beq_eq_false_iff_ne.mpr ha
        simp [lookupEntry, ha'] at h
        simp [setEntry, ha', ih h]

/-- Paths starting with a name other than the set entry are unaffected. -/
theorem getPathE_setEntry_ne (es : FsEntries) (n : String) (t : FsTree) (m : String)
    (p : List String) (h : m ≠ n) :
    getPathE (setEntry es n t) (m :: p) = getPathE es (m :: p) := by
  cases p with
  | nil => simp [getPathE, lookup_setEntry, h]
  | cons k p' => simp [getPathE_cons_cons, lookup_setEntry, h]

/-- When the path down to an existing entry consists of existing directories,
`mkdir(parents=True, exist_ok=True)` succeeds and changes nothing. -/
theorem mkdir_existing (parent : List String) (es : FsEntries) (fn : String) (t : FsTree)
    (h : getPathE es (parent ++ [fn]) = some t) :
    mkdirOk es parent = true ∧ mkdirCreate es parent = es := by
  induction parent generalizing es with
  | nil => exact ⟨rfl, rfl⟩
  | cons n ps ih =>
      rw [List.cons_append] at h
      cases hpf : ps ++ [fn] with
      | nil => exact absurd hpf (by simp)
      | cons m rest =>
          rw [hpf, getPathE_cons_cons] at h
          cases hl : lookupEntry es n with
          | none => rw [hl] at h; simp at h
          | some u =>
              cases u with
              | file c => rw [hl] at h; simp at h
              | dir des =>
                  rw [hl] at h
                  simp only [] at h
                  rw [← hpf] at h
                  obtain ⟨hok, hcr⟩ := ih des h
                  constructor
                  · show mkdirOk es (n :: ps) = true
                    unfold mkdirOk
                    simp [hl, hok]
                  · show mkdirCreate es (n :: ps) = es
                    unfold mkdirCreate
                    simp [hl, hcr, setEntry_self es n (FsTree.dir des) hl]

/-- `copy2At` on a path to an existing file succeeds and overwrites that
file with the new content. -/
theorem copy2At_overwrite (parent : List String) (es : FsEntries) (fn c c0 : String)
    (h : getPathE es (parent ++ [fn]) = some (FsTree.file c0)) :
    (copy2At es parent fn c).2 = true
    ∧ getPathE (copy2At es parent fn c).1 (parent ++ [fn]) = some (FsTree.file c) := by
  induction parent generalizing es with
  | nil =>
      have hl : lookupEntry es fn = some (FsTree.file c0) := by
        simpa [getPathE] using h
      unfold copy2At copy2
      simp [hl, getPathE, lookup_setEntry]
  | cons d ps ih =>
      rw [List.cons_append] at h
      cases hpf : ps ++ [fn] with
      | nil => exact absurd hpf (by simp)
      | cons m rest =>
          rw [hpf, getPathE_cons_cons] at h
          cases hl : lookupEntry es d with
          | none => rw [hl] at h; simp at h
          | some u =>
              cases u with
              | file c1 => rw [hl] at h; simp at h
              | dir des =>
                  rw [hl] at h
                  simp only [] at h
                  rw [← hpf] at h
                  obtain ⟨hok, hget⟩ := ih des h
                  constructor
                  · show (copy2At es (d :: ps) fn c).2 = true
                    unfold copy2At
                    simp [hl, hok]
                  · show getPathE (copy2At es (d :: ps) fn c).1 ((d :: ps) ++ [fn])
                        = some (FsTree.file c)
                    unfold copy2At
                    simp only [hl, List.cons_append]
                    cases hpf2 : ps ++ [fn] with
                    | nil => exact absurd hpf2 (by simp)
                    | cons m2 rest2 =>
                        rw [getPathE_cons_cons, lookup_setEntry]
                        simp only [if_pos rfl]
                        rw [← hpf2]
                        exact hget

/-- The merge-loop body (`mkdir` of the parents, then `copy2`) on a file that
already exists at the destination: it succeeds and the destination afterwards
holds the incoming content. -/
theorem writeFileOp_overwrite (es : FsEntries) (parent : List String) (fn c c0 : String)
    (h : getPathE es (parent ++ [fn]) = some (FsTree.file c0)) :
    (writeFileOp es parent fn c).2 = true
    ∧ getPathE (writeFileOp es parent fn c).1 (parent ++ [fn]) = some (FsTree.file c) := by
  obtain ⟨hok, hcr⟩ := mkdir_existing parent es fn _ h
  unfold writeFileOp mkdirParents
  rw [hok]
  simp only [if_true, hcr]
  exact copy2At_overwrite parent es fn c c0 h

/-- Descending one existing directory at the head of a non-empty path. -/
theorem getPathE_cons_of_dir (es : FsEntries) (n : String) (p : List String)
    (des : FsEntries) (hl : lookupEntry es n = some (FsTree.dir des)) (hp : p ≠ []) :
    getPathE es (n :: p) = getPathE des p := by
  cases p with
  | nil => exact absurd rfl hp
  | cons a b => rw [getPathE_cons_cons, hl]

/-- Following a path through a directory found at a shorter path. -/
theorem getPathE_append (q : List String) (es : FsEntries) (r : List String)
    (des : FsEntries) (hq : getPathE es q = some (FsTree.dir des)) (hr : r ≠ []) :
    getPathE es (q ++ r) = getPathE des r := by
  induction q generalizing es with
  | nil => simp [getPathE] at hq
  | cons n qs ih =>
      cases qs with
      | nil =>
          have hl : lookupEntry es n = some (FsTree.dir des) := by
            simpa [getPathE] using hq
          exact getPathE_cons_of_dir es n r des hl hr
      | cons m qs' =>
          rw [getPathE_cons_cons] at hq
          cases hl : lookupEntry es n with
          | none => rw [hl] at hq; simp at hq
          | some u =>
              cases u with
              | file c => rw [hl] at hq; simp at hq
              | dir des' =>
                  rw [hl] at hq
                  simp only [] at hq
                  calc getPathE es ((n :: m :: qs') ++ r)
                      = getPathE des' ((m :: qs') ++ r) :=
                        getPathE_cons_of_dir es n ((m :: qs') ++ r) des' hl (by simp)
                    _ = getPathE des r := ih des' hq

/-- A path that cannot be followed at its head yields `none`. -/
theorem getPathE_cons_not_dir (es : FsEntries) (n : String) (p : List String)
    (hp : p ≠ []) (hl : ∀ des, lookupEntry es n ≠ some (FsTree.dir des)) :
    getPathE es (n :: p) = none := by
  cases p with
  | nil => exact absurd rfl hp
  | cons a b =>
      rw [getPathE_cons_cons]
      cases hc : lookupEntry es n with
      | none => rfl
      | some u =>
          cases u with
          | file c => rfl
          | dir des => exact absurd hc (hl des)

/-- If a longer path resolves, every non-empty proper prefix resolves to a
directory. -/
theorem getPathE_prefix_dir (q : List String) (es : FsEntries) (r : List String)
    (t : FsTree) (h : getPathE es (q ++ r) = some t) (hq : q ≠ []) (hr : r ≠ []) :
    ∃ des, getPathE es q = some (FsTree.dir des) := by
  induction q generalizing es with
  | nil => exact absurd rfl hq
  | cons n qs ih =>
      rw [List.cons_append] at h
      cases hl : lookupEntry es n with
      | none =>
          rw [getPathE_cons_not_dir es n (qs ++ r) (by simp [hr])
            (fun des hc => by rw [hl] at hc; cases hc)] at h
          cases h
      | some u =>
          cases u with
          | file c =>
              rw [getPathE_cons_not_dir es n (qs ++ r) (by simp [hr])
                (fun des hc => by rw [hl] at hc; cases hc)] at h
              cases h
          | dir des' =>
              cases qs with
              | nil => exact ⟨des', by simp [getPathE, hl]⟩
              | cons m qs' =>
                  rw [getPathE_cons_of_dir es n ((m :: qs') ++ r) des' hl (by simp)] at h
                  obtain ⟨des, hd⟩ := ih des' h (by simp)
                  exact ⟨des, by rw [getPathE_cons_of_dir es n (m :: qs') des' hl
                    (by simp), hd]⟩

/-- The head name of a listed file path is the name of one of the listing's
entries. -/
theorem headName_mem (l : FsEntries) :
    ∀ x ∈ filesOfEntries l, x.1.headD x.2.1 ∈ l.map Prod.fst := by
  induction l using filesOfEntries.induct with
  | case1 => intro x hx; simp [filesOfEntries] at hx
  | case2 n c rest ih =>
      intro x hx
      rw [filesOfEntries] at hx
      rcases List.mem_cons.mp hx with h | h
      · subst h; simp
      · simpa using Or.inr (ih x h)
  | case3 n des rest ih1 ih2 =>
      intro x hx
      rw [filesOfEntries] at hx
      rcases List.mem_append.mp hx with h | h
      · obtain ⟨y, hy, hxy⟩ := List.mem_map.mp h
        subst hxy
        simp
      · simpa using Or.inr (ih2 x h)

/-- Under well-formedness, every listed file of a tree is found at its listed
path with its listed content. -/
theorem filesOfEntries_getPathE (l : FsEntries) :
    wfEntries l = true → ∀ x ∈ filesOfEntries l,
      getPathE l (x.1 ++ [x.2.1]) = some (FsTree.file x.2.2) := by
  induction l using filesOfEntries.induct with
  | case1 => intro _ x hx; simp [filesOfEntries] at hx
  | case2 n c rest ih =>
      intro hwf x hx
      rw [wfEntries] at hwf
      simp only [Bool.and_eq_true, Bool.not_eq_true'] at hwf
      rw [filesOfEntries] at hx
      rcases List.mem_cons.mp hx with h | h
      · subst h
        simp [getPathE, lookupEntry]
      · obtain ⟨p1, fn1, c1⟩ := x
        have hmem := headName_mem rest (p1, fn1, c1) h
        have hrec := ih hwf.2 (p1, fn1, c1) h
        dsimp only at hmem hrec ⊢
        have hne : (n == p1.headD fn1) = false := by
          rw [List.contains_eq_any_beq, List.any_eq_false] at hwf
          simpa using hwf.1 _ hmem
        cases p1 with
        | nil =>
            simp only [List.nil_append] at hrec ⊢
            rw [getPathE_cons_ne _ _ _ _ _ (by simpa using hne)]
            exact hrec
        | cons a as =>
            rw [show ((a :: as) ++ [fn1]) = a :: (as ++ [fn1]) from rfl] at hrec ⊢
            rw [getPathE_cons_ne _ _ _ _ _ (by simpa using hne)]
            exact hrec
  | case3 n des rest ih1 ih2 =>
      intro hwf x hx
      rw [wfEntries] at hwf
      simp only [Bool.and_eq_true, Bool.not_eq_true'] at hwf
      rw [filesOfEntries] at hx
      rcases List.mem_append.mp hx with h | h
      · obtain ⟨y, hy, hxy⟩ := List.mem_map.mp h
        obtain ⟨py, fny, cy⟩ := y
        subst hxy
        have hyp := ih1 hwf.1.2 (py, fny, cy) hy
        dsimp only at hyp ⊢
        have hl : lookupEntry ((n, FsTree.dir des) :: rest) n
            = some (FsTree.dir des) := by simp [lookupEntry]
        rw [show ((n :: py) ++ [fny]) = n :: (py ++ [fny]) from rfl,
          getPathE_cons_of_dir _ n (py ++ [fny]) des hl (by simp)]
        exact hyp
      · obtain ⟨p1, fn1, c1⟩ := x
        have hmem := headName_mem rest (p1, fn1, c1) h
        have hrec := ih2 hwf.2 (p1, fn1, c1) h
        dsimp only at hmem hrec ⊢
        have hne : (n == p1.headD fn1) = false := by
          rw [List.contains_eq_any_beq, List.any_eq_false] at hwf
          simpa using hwf.1.1 _ hmem
        cases p1 with
        | nil =>
            simp only [List.nil_append] at hrec ⊢
            rw [getPathE_cons_ne _ _ _ _ _ (by simpa using hne)]
            exact hrec
        | cons a as =>
            rw [show ((a :: as) ++ [fn1]) = a :: (as ++ [fn1]) from rfl] at hrec ⊢
            rw [getPathE_cons_ne _ _ _ _ _ (by simpa using hne)]
            exact hrec

/-- If some path of a listing resolves to a file, the listing's file list is
non-empty. -/
theorem files_ne_nil_of_file (l : FsEntries) :
    ∀ (r : List String) (c : String), getPathE l r = some (FsTree.file c) →
      filesOfEntries l ≠ [] := by
  induction l using filesOfEntries.induct with
  | case1 =>
      intro r c h
      exfalso
      cases r with
      | nil => simp [getPathE] at h
      | cons a p =>
          cases p with
          | nil => simp [getPathE, lookupEntry] at h
          | cons b p' => rw [getPathE_cons_cons] at h; simp [lookupEntry] at h
  | case2 n c0 rest ih =>
      intro r c h
      simp [filesOfEntries]
  | case3 n des rest ih1 ih2 =>
      intro r c h
      cases r with
      | nil => simp [getPathE] at h
      | cons k p =>
          by_cases hk : n = k
          · subst hk
            cases p with
            | nil => simp [getPathE, lookupEntry] at h
            | cons m p' =>
                have hl : lookupEntry ((n, FsTree.dir des) :: rest) n
                    = some (FsTree.dir des) := by simp [lookupEntry]
                rw [getPathE_cons_of_dir _ n (m :: p') des hl (by simp)] at h
                have hne := ih1 (m :: p') c h
                rw [filesOfEntries]
                intro hcontra
                obtain ⟨h1, _⟩ := List.append_eq_nil.mp hcontra
                exact hne (List.map_eq_nil_iff.mp h1)
          · have hk' : (n == k) = false := beq_eq_false_iff_ne.mpr hk
            rw [getPathE_cons_ne _ _ _ _ _ hk'] at h
            have hne := ih2 (k :: p) c h
            rw [filesOfEntries]
            intro hcontra
            exact hne (List.append_eq_nil.mp hcontra).2

/-- If the subtree at `q` is a directory with no files anywhere below it,
then no listed file path of the listing passes through `q`, even extended by
the one extra level the into-directory `copy2` step can create. -/
theorem no_files_below (es : FsEntries) (q : List String) (des : FsEntries)
    (hwf : wfEntries es = true)
    (hq : getPathE es q = some (FsTree.dir des))
    (hempty : filesOfEntries des = [])
    (x : List String × String × String) (hx : x ∈ filesOfEntries es) :
    ¬ (q <+: (x.1 ++ [x.2.1, x.2.1])) := by
  intro hpre
  have hfile := filesOfEntries_getPathE es hwf x hx
  have hsplit : q = (x.1 ++ [x.2.1]) ++ [x.2.1] ∨ q = x.1 ++ [x.2.1] ∨ q <+: x.1 := by
    have h1 : q <+: (x.1 ++ [x.2.1]) ++ [x.2.1] := by
      simpa [List.append_assoc] using hpre
    rcases List.prefix_concat_iff.mp h1 with h | h
    · exact Or.inl h
    · rcases List.prefix_concat_iff.mp h with h' | h'
      · exact Or.inr (Or.inl h')
      · exact Or.inr (Or.inr h')
  rcases hsplit with h | h | h
  · rw [h] at hq
    obtain ⟨d', hd'⟩ := getPathE_prefix_dir (x.1 ++ [x.2.1]) es [x.2.1] _ hq
      (by simp) (by simp)
    rw [hfile] at hd'
    simp at hd'
  · rw [h, hfile] at hq
    simp at hq
  · obtain ⟨s, hs⟩ := h
    have hcomp := getPathE_append q es (s ++ [x.2.1]) des hq (by simp)
    rw [← List.append_assoc, hs, hfile] at hcomp
    exact files_ne_nil_of_file des (s ++ [x.2.1]) x.2.2 hcomp.symm hempty

/-- `mkdirCreate` creates directories only along its path: any path that
resolved to nothing and is not a prefix of the created path still resolves to
nothing. -/
theorem mkdirCreate_frame (p : List String) (es : FsEntries) (q : List String)
    (hnone : getPathE es q = none) (hnp : ¬ (q <+: p)) :
    getPathE (mkdirCreate es p) q = none := by
  induction p generalizing es q with
  | nil => simpa [mkdirCreate] using hnone
  | cons n ps ih =>
      cases q with
      | nil => simp [getPathE]
      | cons m q' =>
          by_cases hm : m = n
          · subst hm
            cases hl : lookupEntry es m with
            | none =>
                cases q' with
                | nil => exact absurd (by simp) hnp
                | cons k q'' =>
                    simp only [mkdirCreate, hl]
                    have hls : lookupEntry (setEntry es m (FsTree.dir (mkdirCreate [] ps))) m
                        = some (FsTree.dir (mkdirCreate [] ps)) := by simp [lookup_setEntry]
                    rw [getPathE_cons_of_dir _ m (k :: q'') _ hls (by simp)]
                    apply ih []
                    · cases q'' <;> simp [getPathE, lookupEntry, getPathE_cons_cons]
                    · intro hc
                      exact hnp (by simp [List.cons_prefix_cons, hc])
            | some u =>
                cases u with
                | file c => simp only [mkdirCreate, hl]; exact hnone
                | dir des =>
                    cases q' with
                    | nil => simp [getPathE, hl] at hnone
                    | cons k q'' =>
                        simp only [mkdirCreate, hl]
                        have hls : lookupEntry (setEntry es m (FsTree.dir (mkdirCreate des ps))) m
                            = some (FsTree.dir (mkdirCreate des ps)) := by simp [lookup_setEntry]
                        rw [getPathE_cons_of_dir _ m (k :: q'') _ hls (by simp)]
                        apply ih des
                        · rw [getPathE_cons_of_dir es m (k :: q'') des hl (by simp)] at hnone
                          exact hnone
                        · intro hc
                          exact hnp (by simp [List.cons_prefix_cons, hc])
          · cases hl : lookupEntry es n with
            | none =>
                simp only [mkdirCreate, hl]
                rw [getPathE_setEntry_ne es n _ m q' hm]
                exact hnone
            | some u =>
                cases u with
                | file c => simp only [mkdirCreate, hl]; exact hnone
                | dir des =>
                    simp only [mkdirCreate, hl]
                    rw [getPathE_setEntry_ne es n _ m q' hm]
                    exact hnone

/-- `copy2` creates entries only at its target (and possibly one level inside
an existing directory there): other absent paths stay absent. -/
theorem copy2_frame (es : FsEntries) (n c : String) (q : List String)
    (hnone : getPathE es q = none) (h1 : q ≠ [n]) (h2 : q ≠ [n, n]) :
    getPathE (copy2 es n c).1 q = none := by
  cases q with
  | nil => simp [getPathE]
  | cons m q' =>
      by_cases hm : m = n
      · subst hm
        cases hl : lookupEntry es m with
        | none =>
            simp only [copy2, hl]
            cases q' with
            | nil => exact absurd rfl h1
            | cons k q'' =>
                apply getPathE_cons_not_dir _ m (k :: q'') (by simp)
                intro des hc
                rw [lookup_setEntry] at hc
                simp at hc
        | some u =>
            cases u with
            | file c0 =>
                simp only [copy2, hl]
                cases q' with
                | nil => exact absurd rfl h1
                | cons k q'' =>
                    apply getPathE_cons_not_dir _ m (k :: q'') (by simp)
                    intro des hc
                    rw [lookup_setEntry] at hc
                    simp at hc
            | dir des =>
                cases hld : lookupEntry des m with
                | some u2 =>
                    cases u2 with
                    | dir d2 => simp only [copy2, hl, hld]; exact hnone
                    | file c2 =>
                        simp only [copy2, hl, hld]
                        cases q' with
                        | nil => simp [getPathE, hl] at hnone
                        | cons k q'' =>
                            have hls : lookupEntry
                                (setEntry es m (FsTree.dir (setEntry des m (FsTree.file c)))) m
                                = some (FsTree.dir (setEntry des m (FsTree.file c))) := by
                              simp [lookup_setEntry]
                            rw [getPathE_cons_of_dir _ m (k :: q'') _ hls (by simp)]
                            rw [getPathE_cons_of_dir es m (k :: q'') des hl (by simp)] at hnone
                            by_cases hk : k = m
                            · subst hk
                              cases q'' with
                              | nil => exact absurd rfl h2
                              | cons j q3 =>
                                  apply getPathE_cons_not_dir _ k (j :: q3) (by simp)
                                  intro d hc
                                  rw [lookup_setEntry] at hc
                                  simp at hc
                            · rw [getPathE_setEntry_ne des m (FsTree.file c) k q'' hk]
                              exact hnone
                | none =>
                    simp only [copy2, hl, hld]
                    cases q' with
                    | nil => simp [getPathE, hl] at hnone
                    | cons k q'' =>
                        have hls : lookupEntry
                            (setEntry es m (FsTree.dir (setEntry des m (FsTree.file c)))) m
                            = some (FsTree.dir (setEntry des m (FsTree.file c))) := by
                          simp [lookup_setEntry]
                        rw [getPathE_cons_of_dir _ m (k :: q'') _ hls (by simp)]
                        rw [getPathE_cons_of_dir es m (k :: q'') des hl (by simp)] at hnone
                        by_cases hk : k = m
                        · subst hk
                          cases q'' with
                          | nil => exact absurd rfl h2
                          | cons j q3 =>
                              apply getPathE_cons_not_dir _ k (j :: q3) (by simp)
                              intro d hc
                              rw [lookup_setEntry] at hc
                              simp at hc
                        · rw [getPathE_setEntry_ne des m (FsTree.file c) k q'' hk]
                          exact hnone
      · cases hl : lookupEntry es n with
        | none =>
            simp only [copy2, hl]
            rw [getPathE_setEntry_ne es n _ m q' hm]
            exact hnone
        | some u =>
            cases u with
            | file c0 =>
                simp only [copy2, hl]
                rw [getPathE_setEntry_ne es n _ m q' hm]
                exact hnone
            | dir des =>
                cases hld : lookupEntry des n with
                | some u2 =>
                    cases u2 with
                    | dir d2 => simp only [copy2, hl, hld]; exact hnone
                    | file c2 =>
                        simp only [copy2, hl, hld]
                        rw [getPathE_setEntry_ne es n _ m q' hm]
                        exact hnone
                | none =>
                    simp only [copy2, hl, hld]
                    rw [getPathE_setEntry_ne es n _ m q' hm]
                    exact hnone

/-- `copy2At` frame property: absent paths that are not prefixes of (one
level inside) the written file path stay absent. -/
theorem copy2At_frame (parent : List String) (es : FsEntries) (fn c : String)
    (q : List String) (hnone : getPathE es q = none)
    (hnp : ¬ (q <+: parent ++ [fn, fn])) :
    getPathE (copy2At es parent fn c).1 q = none := by
  induction parent generalizing es q with
  | nil =>
      apply copy2_frame es fn c q hnone
      · intro e
        exact hnp (by rw [e]; simp)
      · intro e
        exact hnp (by rw [e]; simp)
  | cons d ps ih =>
      cases hl : lookupEntry es d with
      | none => simp only [copy2At, hl]; exact hnone
      | some u =>
          cases u with
          | file c0 => simp only [copy2At, hl]; exact hnone
          | dir des =>
              simp only [copy2At, hl]
              cases q with
              | nil => simp [getPathE]
              | cons m q' =>
                  by_cases hm : m = d
                  · subst hm
                    cases q' with
                    | nil => simp [getPathE, hl] at hnone
                    | cons k q'' =>
                        have hls : lookupEntry
                            (setEntry es m (FsTree.dir (copy2At des ps fn c).1)) m
                            = some (FsTree.dir (copy2At des ps fn c).1) := by
                          simp [lookup_setEntry]
                        rw [getPathE_cons_of_dir _ m (k :: q'') _ hls (by simp)]
                        apply ih des
                        · rw [getPathE_cons_of_dir es m (k :: q'') des hl (by simp)] at hnone
                          exact hnone
                        · intro hc
                          apply hnp
                          rw [List.cons_append, List.cons_prefix_cons]
                          exact ⟨rfl, hc⟩
                  · rw [getPathE_setEntry_ne es d _ m q' hm]
                    exact hnone

/-- `writeFileOp` frame property. -/
theorem writeFileOp_frame (es : FsEntries) (parent : List String) (fn c : String)
    (q : List String) (hnone : getPathE es q = none)
    (hnp : ¬ (q <+: parent ++ [fn, fn])) :
    getPathE (writeFileOp es parent fn c).1 q = none := by
  have hsplit : writeFileOp es parent fn c
      = if mkdirOk es parent then copy2At (mkdirCreate es parent) parent fn c
        else (es, false) := by
    unfold writeFileOp mkdirParents
    by_cases hok : mkdirOk es parent = true <;> simp [hok]
  rw [hsplit]
  by_cases hok : mkdirOk es parent = true
  · rw [if_pos hok]
    apply copy2At_frame parent (mkdirCreate es parent) fn c q _ hnp
    apply mkdirCreate_frame parent es q hnone
    intro hc
    exact hnp (hc.trans (List.prefix_append _ _))
  · rw [if_neg hok]
    exact hnone

/-- The merge loop frame property: a path absent from the destination that no
copied file touches is still absent after the loop. -/
theorem copyFilesLoop_frame (fs : List (List String × String × String))
    (dest : FsEntries) (name : String) (q : List String)
    (hnone : getPathE dest q = none)
    (hall : ∀ x ∈ fs, ¬ (q <+: (name :: x.1) ++ [x.2.1, x.2.1])) :
    getPathE (copyFilesLoop dest name fs).1 q = none := by
  induction fs generalizing dest with
  | nil => simpa [copyFilesLoop] using hnone
  | cons x rest ih =>
      obtain ⟨p, fn, c⟩ := x
      have hw := writeFileOp_frame dest (name :: p) fn c q hnone
        (by have := hall (p, fn, c) (List.mem_cons_self _ _); simpa using this)
      simp only [copyFilesLoop]
      by_cases hr : (writeFileOp dest (name :: p) fn c).2 = true
      · simp only [hr, if_true]
        exact ih _ hw fun y hy => hall y (List.mem_cons_of_mem _ hy)
      · have hr' : (writeFileOp dest (name :: p) fn c).2 = false := by simpa using hr
        simp only [hr', Bool.false_eq_true, if_false]
        exact hw

/-- A listing that is not a single wrapping directory is used as-is. -/
theorem flattenSource_eq_self (items : FsEntries)
    (h : ∀ n es, items ≠ [(n, FsTree.dir es)]) : flattenSource items = items := by
  match items, h with
  | [], _ => rfl
  | [(n, FsTree.file c)], _ => rfl
  | [(n, FsTree.dir es)], h => exact absurd rfl (h n es)
  | a :: b :: rest, _ =>
      obtain ⟨x, t⟩ := a
      cases t <;> rfl

/-! ## Claims -/

/-- C3: for every template identifier such that no asset in the release
metadata both contains the identifier-derived pattern in its name and ends in
`.zip`, asset resolution fails with `TemplateNotFound` and no file is created
in the download directory. -/
theorem c3_no_match_no_download (ai : String) (assets : List Asset) (si : Bool)
    (h : ∀ a ∈ assets, assetMatches ai a = false) :
    (download_template_from_github ai assets si).result = Except.error "TemplateNotFound"
    ∧ (download_template_from_github ai assets si).fileWrittenDuring = false := by
  have hf : assets.filter (assetMatches ai) = [] := by
    apply List.filter_eq_nil_iff.mpr
    intro a ha
    simp [h a ha]
  simp [download_template_from_github, hf]

/-- Witness for C3: an asset list whose single entry does not match. -/
theorem c3_no_match_no_download_witness :
    (download_template_from_github "claude" [⟨"other-file.tar.gz", "u", 7⟩] false).result
        = Except.error "TemplateNotFound"
    ∧ (download_template_from_github "claude" [⟨"other-file.tar.gz", "u", 7⟩] false).fileWrittenDuring
        = false := by
  apply c3_no_match_no_download
  intro a ha
  simp only [List.mem_singleton] at ha
  subst ha
  decide

/-- C4: when the stream is interrupted mid-download, the partially written
file is deleted before the `DownloadError` propagates — the fetch never
leaves a truncated file behind. -/
theorem c4_interrupted_download_removes_file (ai : String) (assets : List Asset)
    (h : assets.filter (assetMatches ai) ≠ []) :
    (download_template_from_github ai assets true).result = Except.error "DownloadError"
    ∧ (download_template_from_github ai assets true).fileWrittenDuring = true
    ∧ (download_template_from_github ai assets true).fileRemains = false := by
  cases hf : assets.filter (assetMatches ai) with
  | nil => exact absurd hf h
  | cons a rest => simp [download_template_from_github, hf]

/-- Witness for C4: a matching asset exists and the stream is interrupted. -/
theorem c4_interrupted_download_removes_file_witness :
    (download_template_from_github "claude" [⟨"spec-kit-template-claude-v1.zip", "u", 7⟩] true).result
        = Except.error "DownloadError"
    ∧ (download_template_from_github "claude" [⟨"spec-kit-template-claude-v1.zip", "u", 7⟩] true).fileWrittenDuring
        = true
    ∧ (download_template_from_github "claude" [⟨"spec-kit-template-claude-v1.zip", "u", 7⟩] true).fileRemains
        = false := by
  apply c4_interrupted_download_removes_file
  decide

/-- C5: every run of the extract phase deletes the staging directory and the
downloaded archive before returning, on the success path and on every failure
path, in both destination modes. -/
theorem c5_no_temporary_artifacts (zipEntries destInit : FsEntries)
    (ff : FreshFailures) (cf : CurrentFailures) :
    (runFreshExtract zipEntries ff).zipExists = false
    ∧ (runCurrentExtract destInit zipEntries cf).stagingExists = false
    ∧ (runCurrentExtract destInit zipEntries cf).zipExists = false := by
  refine ⟨?_, ?_, ?_⟩
  · unfold runFreshExtract
    split
    · rfl
    · split
      · split
        · rfl
        · split
          · rfl
          · split <;> rfl
      · rfl
  · unfold runCurrentExtract
    split <;> rfl
  · unfold runCurrentExtract
    split <;> rfl

/-- C2: in fresh-directory mode, if any step of extraction or flattening
fails after the pipeline created the destination directory, the destination
directory does not exist after the failure propagates. -/
theorem c2_fresh_mode_rollback (zipEntries : FsEntries) (f : FreshFailures)
    (h : (runFreshExtract zipEntries f).ok = false) :
    (runFreshExtract zipEntries f).projectExists = false := by
  rw [runFreshExtract_projectExists_eq_ok]
  exact h

/-- Witness for C2: the unpack step itself fails. -/
theorem c2_fresh_mode_rollback_witness :
    (runFreshExtract [("README.md", FsTree.file "hi")] ⟨true, false, false, false⟩).ok = false
    ∧ (runFreshExtract [("README.md", FsTree.file "hi")] ⟨true, false, false, false⟩).projectExists
        = false :=
  ⟨rfl, c2_fresh_mode_rollback _ _ rfl⟩

/-- C1: an archive whose top level is exactly one directory is flattened —
both destination modes consume that directory's contents as the effective
source tree; any other top level (several entries, or a single file) is used
as-is with no flattening. -/
theorem c1_single_wrapping_root_flatten :
    (∀ n es destInit,
      (runFreshExtract [(n, FsTree.dir es)] noFreshFailure).project = es
      ∧ runCurrentExtract destInit [(n, FsTree.dir es)] noCurrentFailure
          = ⟨(mergeLoop destInit es).1, false, false, (mergeLoop destInit es).2⟩)
    ∧ (∀ items destInit, (∀ n es, items ≠ [(n, FsTree.dir es)]) →
      (runFreshExtract items noFreshFailure).project = items
      ∧ runCurrentExtract destInit items noCurrentFailure
          = ⟨(mergeLoop destInit items).1, false, false, (mergeLoop destInit items).2⟩) := by
  constructor
  · exact fun n es destInit => ⟨rfl, rfl⟩
  · intro items destInit h
    have hf : flattenSource items = items := flattenSource_eq_self items h
    constructor
    · match items, h with
      | [], _ => rfl
      | [(n, FsTree.file c)], _ => rfl
      | [(n, FsTree.dir es)], h => exact absurd rfl (h n es)
      | a :: b :: rest, _ =>
          obtain ⟨x, t⟩ := a
          cases t <;> rfl
    · show CurrentOutcome.mk (mergeLoop destInit (flattenSource items)).1 false false
          (mergeLoop destInit (flattenSource items)).2 = _
      rw [hf]

/-- Witness for C1 (non-flattening side): two top-level entries are used
as-is; the flattening side is instantiated alongside. -/
theorem c1_single_wrapping_root_flatten_witness :
    ((runFreshExtract [("root", FsTree.dir [("x", FsTree.file "1")])] noFreshFailure).project
        = [("x", FsTree.file "1")]
      ∧ runCurrentExtract [] [("root", FsTree.dir [("x", FsTree.file "1")])] noCurrentFailure
          = ⟨(mergeLoop [] [("x", FsTree.file "1")]).1, false, false,
             (mergeLoop [] [("x", FsTree.file "1")]).2⟩)
    ∧ ((runFreshExtract [("a", FsTree.file "1"), ("b", FsTree.file "2")] noFreshFailure).project
        = [("a", FsTree.file "1"), ("b", FsTree.file "2")]
      ∧ runCurrentExtract [] [("a", FsTree.file "1"), ("b", FsTree.file "2")] noCurrentFailure
          = ⟨(mergeLoop [] [("a", FsTree.file "1"), ("b", FsTree.file "2")]).1, false, false,
             (mergeLoop [] [("a", FsTree.file "1"), ("b", FsTree.file "2")]).2⟩) := by
  constructor
  · exact c1_single_wrapping_root_flatten.1 "root" [("x", FsTree.file "1")] []
  · refine c1_single_wrapping_root_flatten.2 [("a", FsTree.file "1"), ("b", FsTree.file "2")] [] ?_
    intro n es hcontra
    simp at hcontra

/-- C6: in current-directory mode an incoming file whose path already exists
at the destination as a file is silently overwritten, at the top level
(`shutil.copy2(item, dest_path)`) and inside a merged directory alike; the
copy succeeds (no "file exists" error) and the destination afterwards holds
the archive's content. -/
theorem c6_overwrite_existing_file (dest destN : FsEntries) (name c0 c : String)
    (parent : List String) (fn c1 c' : String)
    (h1 : lookupEntry dest name = some (FsTree.file c0))
    (h2 : getPathE destN (parent ++ [fn]) = some (FsTree.file c1)) :
    ((copyItemOp dest name (FsTree.file c)).2 = true
      ∧ lookupEntry (copyItemOp dest name (FsTree.file c)).1 name
          = some (FsTree.file c))
    ∧ ((writeFileOp destN parent fn c').2 = true
      ∧ getPathE (writeFileOp destN parent fn c').1 (parent ++ [fn])
          = some (FsTree.file c')) := by
  constructor
  · show ((copy2 dest name c).2 = true) ∧ lookupEntry (copy2 dest name c).1 name = _
    unfold copy2
    simp [h1, lookup_setEntry]
  · exact writeFileOp_overwrite destN parent fn c' c1 h2

/-- Witness for C6: `config.json` exists at the destination top level and
`a/b` exists below a merged directory; both are overwritten. -/
theorem c6_overwrite_existing_file_witness :
    (((copyItemOp [("config.json", FsTree.file "old")] "config.json"
          (FsTree.file "new")).2 = true
      ∧ lookupEntry (copyItemOp [("config.json", FsTree.file "old")] "config.json"
          (FsTree.file "new")).1 "config.json" = some (FsTree.file "new"))
    ∧ ((writeFileOp [("a", FsTree.dir [("b", FsTree.file "x")])] ["a"] "b" "y").2 = true
      ∧ getPathE (writeFileOp [("a", FsTree.dir [("b", FsTree.file "x")])] ["a"] "b" "y").1
          (["a"] ++ ["b"]) = some (FsTree.file "y"))) :=
  c6_overwrite_existing_file [("config.json", FsTree.file "old")]
    [("a", FsTree.dir [("b", FsTree.file "x")])] "config.json" "old" "new"
    ["a"] "b" "x" "y" rfl rfl

/-- C10: merging an incoming directory with a same-named destination
directory processes only the files of the incoming subtree, and a directory
of the incoming subtree with no files anywhere below it is not created at
the destination. -/
theorem c10_no_file_free_dir_created (dest : FsEntries) (name : String)
    (es : FsEntries) (q : List String) (d0 des : FsEntries)
    (hwf : wfEntries es = true)
    (hdest : lookupEntry dest name = some (FsTree.dir d0))
    (hsub : getPathE es q = some (FsTree.dir des))
    (hempty : filesOfEntries des = [])
    (hnot : getPathE dest (name :: q) = none) :
    copyItemOp dest name (FsTree.dir es) = copyFilesLoop dest name (filesOfEntries es)
    ∧ getPathE (copyItemOp dest name (FsTree.dir es)).1 (name :: q) = none := by
  have heq : copyItemOp dest name (FsTree.dir es)
      = copyFilesLoop dest name (filesOfEntries es) := by
    simp [copyItemOp, hdest]
  refine ⟨heq, ?_⟩
  rw [heq]
  apply copyFilesLoop_frame _ _ _ _ hnot
  intro x hx hc
  apply no_files_below es q des hwf hsub hempty x hx
  rw [List.cons_append, List.cons_prefix_cons] at hc
  exact hc.2

/-- Witness for C10: the incoming directory `pkg` holds an empty directory
`sub` and a file `f.txt`; `pkg` already exists at the destination; after the
merge `pkg/sub` still does not exist. -/
theorem c10_no_file_free_dir_created_witness :
    copyItemOp [("pkg", FsTree.dir [("keep.txt", FsTree.file "k")])] "pkg"
        (FsTree.dir [("sub", FsTree.dir []), ("f.txt", FsTree.file "F")])
      = copyFilesLoop [("pkg", FsTree.dir [("keep.txt", FsTree.file "k")])] "pkg"
          (filesOfEntries [("sub", FsTree.dir []), ("f.txt", FsTree.file "F")])
    ∧ getPathE (copyItemOp [("pkg", FsTree.dir [("keep.txt", FsTree.file "k")])] "pkg"
          (FsTree.dir [("sub", FsTree.dir []), ("f.txt", FsTree.file "F")])).1
        ("pkg" :: ["sub"]) = none :=
  c10_no_file_free_dir_created
    [("pkg", FsTree.dir [("keep.txt", FsTree.file "k")])] "pkg"
    [("sub", FsTree.dir []), ("f.txt", FsTree.file "F")] ["sub"]
    [("keep.txt", FsTree.file "k")] []
    (by simp [wfEntries]) rfl (by simp [getPathE, lookupEntry])
    (by simp [filesOfEntries]) (by simp [getPathE, getPathE_cons_cons, lookupEntry])

/-- C8: for all finite sequences of `add`/`start`/`complete`/`error`/`skip`
calls, the resulting key sequence equals the order in which each key was
first introduced, and a second `add` with an existing key never produces a
second entry. -/
theorem c8_first_insertion_order (cs : List TrackerCall) (t : StepTracker)
    (k lab lab' : String) :
    ((applyCalls ⟨[]⟩ cs).steps.map Step.key) = firstIntroOrder [] cs
    ∧ ((t.add k lab).add k lab').steps = (t.add k lab).steps :=
  ⟨keys_applyCalls cs ⟨[]⟩, add_idempotent t k lab lab'⟩

/-- C9: for a key not present in the tracker, each of `start`, `complete`,
`error` and `skip` never raises: it appends a step whose label equals the key
and whose status is the requested one. -/
theorem c9_unknown_key_synthesized (t : StepTracker) (k d : String)
    (h : ((t.steps.map Step.key).contains k) = false) :
    (t.start k d).steps = t.steps ++ [⟨k, k, "running", d⟩]
    ∧ (t.complete k d).steps = t.steps ++ [⟨k, k, "done", d⟩]
    ∧ (t.error k d).steps = t.steps ++ [⟨k, k, "error", d⟩]
    ∧ (t.skip k d).steps = t.steps ++ [⟨k, k, "skipped", d⟩] :=
  ⟨updateSteps_not_mem k "running" d t.steps h,
   updateSteps_not_mem k "done" d t.steps h,
   updateSteps_not_mem k "error" d t.steps h,
   updateSteps_not_mem k "skipped" d t.steps h⟩

/-- Witness for C9: the key `x` is unknown to a one-step tracker. -/
theorem c9_unknown_key_synthesized_witness :
    ((StepTracker.mk [⟨"a", "A", "pending", ""⟩]).start "x" "d").steps
        = [⟨"a", "A", "pending", ""⟩, ⟨"x", "x", "running", "d"⟩]
    ∧ ((StepTracker.mk [⟨"a", "A", "pending", ""⟩]).complete "x" "d").steps
        = [⟨"a", "A", "pending", ""⟩, ⟨"x", "x", "done", "d"⟩]
    ∧ ((StepTracker.mk [⟨"a", "A", "pending", ""⟩]).error "x" "d").steps
        = [⟨"a", "A", "pending", ""⟩, ⟨"x", "x", "error", "d"⟩]
    ∧ ((StepTracker.mk [⟨"a", "A", "pending", ""⟩]).skip "x" "d").steps
        = [⟨"a", "A", "pending", ""⟩, ⟨"x", "x", "skipped", "d"⟩] :=
  c9_unknown_key_synthesized ⟨[⟨"a", "A", "pending", ""⟩]⟩ "x" "d" (by decide)

/-- C7 counterexample: with the destination already containing a git
repository (and git available, no `--no-git` flag), the `git` step is
recorded as `done` ("existing repo detected"), not as `skipped` — the claim
that all three conditions are recorded as skips is false on the code. -/
theorem c7_counterexample :
    (findStep (gitPhase ⟨[⟨"git", "Initialize git repository", "pending", ""⟩]⟩
          ⟨false, true, true, true⟩) "git").map Step.status = some "done"
    ∧ "done" ≠ "skipped" := by
  constructor
  · rfl
  · decide

/-- C7 (amended): a missing git tool and the `--no-git` flag are recorded as
`skipped` with distinct detail texts; an already-present repository is
recorded as `done` with its own detail text; none of the three conditions
makes the phase fail (the phase is a total tracker transformation). -/
theorem c7_git_phase_outcomes (t : StepTracker) (ir ga b b' b'' : Bool) :
    ((findStep (gitPhase t ⟨true, ir, ga, b⟩) "git").map Step.status = some "skipped"
      ∧ (findStep (gitPhase t ⟨true, ir, ga, b⟩) "git").map Step.detail = some "--no-git flag")
    ∧ ((findStep (gitPhase t ⟨false, false, false, b'⟩) "git").map Step.status = some "skipped"
      ∧ (findStep (gitPhase t ⟨false, false, false, b'⟩) "git").map Step.detail
          = some "git not available")
    ∧ ((findStep (gitPhase t ⟨false, true, ga, b''⟩) "git").map Step.status = some "done"
      ∧ (findStep (gitPhase t ⟨false, true, ga, b''⟩) "git").map Step.detail
          = some "existing repo detected") := by
  refine ⟨?_, ?_, ?_⟩
  · show (findStep (t.skip "git" "--no-git flag") "git").map Step.status = _
      ∧ (findStep (t.skip "git" "--no-git flag") "git").map Step.detail = _
    obtain ⟨lab, hl⟩ := find?_updateSteps "git" "skipped" "--no-git flag" t.steps (by decide)
    simp [findStep, StepTracker.skip, StepTracker.update, hl]
  · show (findStep ((t.start "git").skip "git" "git not available") "git").map Step.status = _
      ∧ (findStep ((t.start "git").skip "git" "git not available") "git").map Step.detail = _
    obtain ⟨lab, hl⟩ :=
      find?_updateSteps "git" "skipped" "git not available" (t.start "git").steps (by decide)
    simp [findStep, StepTracker.skip, StepTracker.update, hl]
  · show (findStep ((t.start "git").complete "git" "existing repo detected") "git").map
          Step.status = _
      ∧ (findStep ((t.start "git").complete "git" "existing repo detected") "git").map
          Step.detail = _
    obtain ⟨lab, hl⟩ :=
      find?_updateSteps "git" "done" "existing repo detected" (t.start "git").steps (by decide)
    simp [findStep, StepTracker.complete, StepTracker.update, hl]

end SpecKit
